import Mathlib

/-!
Verification development for the resumable image-to-mesh batch pipeline
(`gen.3d/scripts/1.image2mesh.py`).

The Python source is shallowly embedded:

* The filesystem is abstracted as a predicate `fs : String → Bool` telling
  which paths exist (`os.path.exists`).
* JSON dictionaries with string keys and string values are embedded as
  association lists `List (String × String)` with unique keys; Python's
  `d[k] = v` is `pythonInsert` (update in place, else append, matching
  insertion-ordered dict semantics) and `del d[k]` is a filter.
* A checkpoint entry `{"path": p}` is embedded as the string `p`; a missing
  `"path"` key (`res.get("path", "")`) is the empty string.
* Logging (`print`) is embedded as an explicit list of emitted lines.
* Backend interaction (`requests`) is embedded per item as an oracle value
  describing what the HTTP layer returned.
-/

namespace Image2Mesh

/-- The `"meshes"` sub-document of the checkpoint:
`{"completed": [...], "results": {stem: {"path": p}}}`. -/
structure MeshState where
  completed : List String
  results : List (String × String)
deriving Repr, DecidableEq

/-- The whole persisted checkpoint document.  `extra` models unknown
top-level JSON keys, which the code carries but never reads. -/
structure RawDoc where
  meshes : MeshState
  extra : List (String × String)
deriving Repr, DecidableEq

/-- What `open(self.state_file)` + `json.load` can observe on disk. -/
inductive DiskDoc where
  | missing
  | corrupt (errMsg : String)
  | readable (doc : RawDoc)

def emptyMeshState : MeshState := ⟨[], []⟩

/-- Dictionary lookup `d.get(k)` on an association list. -/
def lookupRes (rs : List (String × String)) (stem : String) : Option String :=
  (rs.find? (fun p => p.1 == stem)).map (·.2)

/-- Python `d[k] = v`: replace the value at an existing key in place,
otherwise append (insertion-ordered dict). -/
def pythonInsert : List (String × String) → String → String → List (String × String)
  | [], k, v => [(k, v)]
  | (k', v') :: rest, k, v =>
    if k' == k then (k, v) :: rest else (k', v') :: pythonInsert rest k v

/-- `ResumableState._load_state`: missing or unparsable file yields the empty
document (the corrupt case with a warning); a readable document is taken
as-is, unknown keys included.  Returns the document and the printed lines. -/
def load_state : DiskDoc → RawDoc × List String
  | .missing => (⟨emptyMeshState, []⟩, [])
  | .corrupt e => (⟨emptyMeshState, []⟩, ["WARNING: Failed to load checkpoint file: " ++ e])
  | .readable d => (d, [])

/-- `ResumableState.__init__`: with `force_start` the checkpoint file is
unlinked before loading (a no-op when absent), so the subsequent load sees a
missing file.  (The source tolerates a failing unlink with a warning; the
unlink itself is modelled as succeeding.) -/
def resumable_init (forceStart : Bool) (disk : DiskDoc) : RawDoc :=
  (load_state (if forceStart then .missing else disk)).1

/-- `ResumableState.is_mesh_complete`: `stem in results`, then
`bool(path and os.path.exists(path))` where `path = results[stem].get("path", "")`. -/
def is_mesh_complete (fs : String → Bool) (st : MeshState) (stem : String) : Bool :=
  match lookupRes st.results stem with
  | none => false
  | some path => !(path == "") && fs path

/-- `ResumableState.set_mesh_result`: upsert `results[stem] = {"path": path}`,
append `stem` to `completed` when new.  (The synchronous `_save_state` call
has no effect on the in-memory state.) -/
def set_mesh_result (st : MeshState) (stem path : String) : MeshState :=
  { completed := if st.completed.contains stem then st.completed else st.completed ++ [stem]
    results := pythonInsert st.results stem path }

/-- The eviction test of `validate_and_cleanup_results` for one stem:
`path = results.get(stem, {}).get("path", "")`; evict when
`not path or not os.path.exists(path)`. -/
def entryStale (fs : String → Bool) (rs : List (String × String)) (stem : String) : Bool :=
  let path := (lookupRes rs stem).getD ""
  path == "" || !(fs path)

/-- The `for stem in list(completed)` loop of `validate_and_cleanup_results`:
iterates over a snapshot of the original completed list while mutating the
live state; `completed.remove` drops the first occurrence (guarded by
membership, hence `List.erase`), `del results[stem]` is a key filter. -/
def cleanupLoop (fs : String → Bool) : List String → MeshState → Nat → MeshState × Nat
  | [], st, removed => (st, removed)
  | stem :: rest, st, removed =>
    if entryStale fs st.results stem then
      cleanupLoop fs rest
        ⟨st.completed.erase stem, st.results.filter (fun p => !(p.1 == stem))⟩
        (removed + 1)
    else
      cleanupLoop fs rest st removed

/-- `ResumableState.validate_and_cleanup_results`: returns the new state, the
eviction count, and whether `_save_state` was called (`if removed:`). -/
def validate_and_cleanup_results (fs : String → Bool) (st : MeshState) :
    MeshState × Nat × Bool :=
  let r := cleanupLoop fs st.completed st 0
  (r.1, r.2, r.2 != 0)

/-- The checkpoint-document invariant: the completed list is duplicate-free
and holds exactly the key set of the results map (an identifier is listed
as completed iff it has a results entry). -/
def invariant (st : MeshState) : Prop :=
  st.completed.Nodup ∧
  (∀ s ∈ st.completed, s ∈ st.results.map (·.1)) ∧
  (∀ p ∈ st.results, p.1 ∈ st.completed)

instance (st : MeshState) : Decidable (invariant st) := by
  unfold invariant; infer_instance

/-! ### Item enumeration (`get_image_files`) -/

/-- One entry of `os.listdir(input_dir)` together with its `os.path.isfile` status. -/
structure DirEntry where
  name : String
  isFile : Bool
deriving Repr, DecidableEq

def IMAGE_EXTENSIONS : List String := [".png", ".jpg", ".jpeg", ".webp", ".bmp", ".tga"]

/-- Split off the last-dot extension of a filename, scanning the reversed
character list: `some (revSuffixChars, revStemChars)` at the last dot. -/
def rsplitDot : List Char → Option (List Char × List Char)
  | [] => none
  | c :: rest =>
    if c == '.' then some ([], rest)
    else (rsplitDot rest).map (fun p => (c :: p.1, p.2))

/-- `str.lower()` for the ASCII filenames at hand (Python lowercases the
full Unicode range; `Char.toLower` the ASCII range). -/
def lowerStr (s : String) : String := ⟨s.toList.map Char.toLower⟩

/-- `pathlib.PurePath.suffix`: the part from the last dot on, but empty when
the dot is the first or the last character of the name. -/
def fileSuffix (name : String) : String :=
  match rsplitDot name.toList.reverse with
  | some (revSuf, revStem) =>
    if revStem ≠ [] ∧ revSuf ≠ [] then ⟨'.' :: revSuf.reverse⟩ else ""
  | none => ""

/-- `pathlib.PurePath.stem`: the name without `fileSuffix`. -/
def fileStem (name : String) : String :=
  match rsplitDot name.toList.reverse with
  | some (revSuf, revStem) =>
    if revStem ≠ [] ∧ revSuf ≠ [] then ⟨revStem.reverse⟩ else name
  | none => name

/-- `get_image_files`: iterate `sorted(os.listdir(input_dir))`, keep regular
files whose lowercased extension is a supported image extension, and return
`(path, stem)` pairs.  (`os.path.join(input_dir, name)` is modelled by the
name itself; the directory part is a constant shared by all entries.)
Python's `sorted` is stable codepoint-lexicographic, which is
`List.insertionSort` on lexicographic `· ≤ ·` over the name characters. -/
def get_image_files (entries : List DirEntry) : List (String × String) :=
  ((List.insertionSort (fun a b : DirEntry => a.name.toList ≤ b.name.toList) entries).filter
      (fun e => e.isFile && IMAGE_EXTENSIONS.contains (lowerStr (fileSuffix e.name)))).map
    (fun e => (e.name, fileStem e.name))

/-! ### Job submission and polling -/

/-- Observable outcome of the `POST /prompt` request in `_queue_prompt`. -/
inductive QueueResult where
  | ok (promptId : String)
  | httpError (code : Nat) (body : String)
  | noPromptId (err : String)
  | exn (msg : String)

/-- `_queue_prompt`: returns the prompt id (an empty `prompt_id` is falsy and
rejected) or `none`, plus the printed error lines. -/
def queue_prompt : QueueResult → Option String × List String
  | .ok pid =>
    if pid == "" then (none, ["ERROR: No prompt_id in response: "])
    else (some pid, [])
  | .httpError c b => (none, ["ERROR: ComfyUI API returned " ++ toString c ++ ": " ++ b])
  | .noPromptId e => (none, ["ERROR: No prompt_id in response: " ++ e])
  | .exn m => (none, ["ERROR: Failed to queue prompt: " ++ m])

/-- One iteration's observation in `_wait_for_completion`: the history request
signalled completion (status 200, prompt id present, `queue_remaining`
defaulting to 0 equal to 0), did not, or raised. -/
inductive PollObs where
  | done
  | pending
  | exn (msg : String)

/-- The polling loop of `_wait_for_completion` over a trace of observations,
with `fuel` the number of polls that fit before `elapsed >= max_wait_seconds`.
Returns whether completion was observed, plus the printed lines. -/
def waitLoop (obs : Nat → PollObs) : Nat → Nat → Bool × List String
  | 0, _ => (false, ["  WARNING: Max wait reached, proceeding to copy outputs."])
  | fuel + 1, i =>
    match obs i with
    | .done => (true, [])
    | .pending => waitLoop obs fuel (i + 1)
    | .exn m =>
      let r := waitLoop obs fuel (i + 1)
      (r.1, ("  WARNING: History poll error: " ++ m) :: r.2)

def wait_for_completion (obs : Nat → PollObs) (fuel : Nat) : Bool × List String :=
  waitLoop obs fuel 0

/-! ### Artifact harvesting -/

/-- `suffix.isSuffixOf cs` by characters. -/
def charSuffixOf (suffix cs : List Char) : Bool :=
  List.isPrefixOf suffix.reverse cs.reverse

/-- `name.lower().endswith(".glb")`. -/
def isGlbFile (name : String) : Bool :=
  charSuffixOf ".glb".toList (lowerStr name).toList

/-- The prefix filter of `_list_glbs_with_prefix`:
`name.startswith(prefix) or name.startswith(prefix + "_")`. -/
def nameMatches (pre name : String) : Bool :=
  List.isPrefixOf pre.toList name.toList ||
    List.isPrefixOf (pre ++ "_").toList name.toList

/-- `_list_glbs_with_prefix` (renamed here `list_glbs_matching`): all `.glb` files (by lowercased extension) under
the ComfyUI output tree whose basename matches the prefix, as
`(basename, mtime)` pairs sorted newest first (`sorted(key=-mtime)` is a
stable descending sort).  The recursive `os.walk` is modelled by the flat
input list `files` in walk order. -/
def list_glbs_matching (pre : String) (files : List (String × Int)) :
    List (String × Int) :=
  List.insertionSort (fun a b : String × Int => b.2 ≤ a.2)
    (files.filter (fun f => isGlbFile f.1 && nameMatches pre f.1))

/-- `rstrip`/`lstrip`-style helper: drop characters satisfying `p` from the
right end of a string. -/
def rdropWhile (p : Char → Bool) (s : String) : String :=
  ⟨(s.toList.reverse.dropWhile p).reverse⟩

/-- One `while` pass at a time, with explicit fuel so the definition is
structurally recursive (and hence kernel-evaluable).  Each pass with a digit
at the head strictly shortens the list, so `cs.length` passes always reach
the loop's exit condition. -/
def stripCounterAux : Nat → List Char → List Char
  | 0, cs => cs
  | fuel + 1, cs =>
    if cs.head?.any Char.isDigit then
      stripCounterAux fuel ((cs.dropWhile Char.isDigit).dropWhile (· == '_'))
    else cs

/-- The `while base and base[-1].isdigit(): base = base.rstrip("0123456789").rstrip("_")`
loop, on the reversed character list. -/
def stripCounterRev (cs : List Char) : List Char :=
  stripCounterAux cs.length cs

/-- `name.replace(".glb", "")`: remove every (non-overlapping, left-to-right)
occurrence of `.glb`. -/
def removeGlb : List Char → List Char
  | '.' :: 'g' :: 'l' :: 'b' :: rest => removeGlb rest
  | c :: rest => c :: removeGlb rest
  | [] => []

/-- The base-name normalization of `_copy_glbs_from_comfyui_to_output`:
`base = name.replace(".glb", "").rstrip("_")`, then strip trailing
counter groups of digits and underscores. -/
def stripBase (name : String) : String :=
  let base := rdropWhile (· == '_') ⟨removeGlb name.toList⟩
  ⟨(stripCounterRev base.toList.reverse).reverse⟩

/-- The logical variant a candidate file reduces to:
`none` when `not base.startswith(stem)` (the `continue` case), otherwise
`base[len(stem):].lstrip("_") or "Textured"`. -/
def variantOf (stem name : String) : Option String :=
  let base := (stripBase name).toList
  if List.isPrefixOf stem.toList base then
    let suf : String := ⟨((base.drop stem.toList.length).dropWhile (· == '_'))⟩
    some (if suf == "" then "Textured" else suf)
  else none

structure CopyOut where
  primary : Option String
  copies : List ((String × Int) × String)
  logs : List String
deriving Repr, DecidableEq

/-- The copy loop of `_copy_glbs_from_comfyui_to_output` over the
newest-first candidate list: skip non-matching bases and already-seen
variants, mark the variant seen, attempt the copy (`copyFails` says whether
`shutil.copy2` raises for a destination), record the copy and update the
primary (`Textured` wins, otherwise first success). -/
def copyLoop (copyFails : String → Bool) (outDir stem : String) :
    List (String × Int) → List String → Option String →
    List ((String × Int) × String) → List String → CopyOut
  | [], _seen, prim, cps, lg => ⟨prim, cps, lg⟩
  | (name, mt) :: rest, seen, prim, cps, lg =>
    match variantOf stem name with
    | none => copyLoop copyFails outDir stem rest seen prim cps lg
    | some suf =>
      if seen.contains suf then copyLoop copyFails outDir stem rest seen prim cps lg
      else
        let seen' := seen ++ [suf]
        let outName := if suf == "Textured" then stem ++ ".glb" else stem ++ "_" ++ suf ++ ".glb"
        let outPath := outDir ++ "/" ++ outName
        if copyFails outPath then
          copyLoop copyFails outDir stem rest seen' prim cps
            (lg ++ ["  ERROR copying " ++ name ++ " -> " ++ outPath])
        else
          let prim' := if suf == "Textured" then some outPath
                       else if prim.isNone then some outPath else prim
          copyLoop copyFails outDir stem rest seen' prim'
            (cps ++ [((name, mt), outPath)])
            (lg ++ ["  Copied to output: " ++ outPath])

/-- `_copy_glbs_from_comfyui_to_output`. -/
def copy_glbs (copyFails : String → Bool) (outDir stem : String)
    (files : List (String × Int)) : CopyOut :=
  let cands := list_glbs_matching stem files
  if cands.isEmpty then
    ⟨none, [], ["  WARNING: No .glb files found with prefix " ++ stem]⟩
  else copyLoop copyFails outDir stem cands [] none [] []

/-! ### The per-item pipeline (`process_one`) -/

/-- Everything the external world does for one item: the submission outcome,
the poll trace with its time budget, the ComfyUI output directory contents at
harvest time, and which destination paths `shutil.copy2` fails for. -/
structure BackendItem where
  queue : QueueResult
  polls : Nat → PollObs
  pollBudget : Nat
  files : List (String × Int)
  copyFails : String → Bool

/-- `process_one`: queue the workflow (failure returns `none` immediately),
wait (the result only selects a warning line), harvest; the item fails iff
no primary output was produced. -/
def process_one (outDir stem : String) (b : BackendItem) : Option String × List String :=
  let q := queue_prompt b.queue
  match q.1 with
  | none => (none, q.2)
  | some _pid =>
    let w := wait_for_completion b.polls b.pollBudget
    let c := copy_glbs b.copyFails outDir stem b.files
    let lg := q.2 ++ w.2 ++ (if w.1 then [] else ["  WARNING: Wait timed out or failed"]) ++ c.logs
    match c.primary with
    | none => (none, lg ++ ["  ERROR: No .glb found for prefix " ++ stem])
    | some p => (some p, lg)

/-! ### The batch coordinator (`process_all`) -/

/-- Keep the first occurrence of each stem; the canonical representation of
the Python set `completed_stems` built from the enumeration-ordered item
list (set iteration order is unspecified in Python, so the model fixes
first-occurrence order; all uses are order-insensitive). -/
def dedupKeepFirst : List String → List String
  | [] => []
  | s :: rest => s :: (dedupKeepFirst rest).filter (fun t => !(t == s))

/-- The state after the `resumable_state.validate_and_cleanup_results` call
at the top of `process_all`. -/
def cleanedState (fs : String → Bool) (st : MeshState) : MeshState :=
  (validate_and_cleanup_results fs st).1

/-- `completed_stems = {stem for image_path, stem in images if is_mesh_complete(stem)}`. -/
def completedStemsOf (fs : String → Bool) (st1 : MeshState)
    (images : List (String × String)) : List String :=
  dedupKeepFirst ((images.filter (fun i => is_mesh_complete fs st1 i.2)).map (·.2))

/-- `to_process = [(p, stem) for p, stem in images if force_regenerate or stem not in completed_stems]`. -/
def toProcessOf (fs : String → Bool) (st1 : MeshState)
    (images : List (String × String)) (force : Bool) : List (String × String) :=
  images.filter (fun i => force || !((completedStemsOf fs st1 images).contains i.2))

/-- Result of one `process_all` run: the returned `{stem: path}` mapping, the
stems `process_one` was invoked for in order, the skipped completed stems,
the final in-memory checkpoint state, and the per-item log lines. -/
structure RunOutput where
  results : List (String × String)
  attempted : List String
  completedStems : List String
  state : MeshState
  logs : List String
deriving Repr, DecidableEq

/-- Partial accumulator of the `for image_path, stem in to_process` loop. -/
structure LoopOut where
  results : List (String × String)
  state : MeshState
  attempted : List String
  logs : List String
deriving Repr, DecidableEq

/-- The per-item loop of `process_all`: `out_path = process_one(...)`;
`if out_path:` (Python truthiness, so an empty-string path counts as
failure) record into the result dict and the checkpoint; on failure just
move on to the next item. -/
def runLoop (o : String → Option String × List String) :
    List (String × String) → MeshState → List (String × String) →
    List String → List String → LoopOut
  | [], st, res, att, lg => ⟨res, st, att, lg⟩
  | (_path, stem) :: rest, st, res, att, lg =>
    let r := o stem
    match r.1 with
    | some out =>
      if out == "" then runLoop o rest st res (att ++ [stem]) (lg ++ r.2)
      else
        runLoop o rest (set_mesh_result st stem out)
          (pythonInsert res stem out) (att ++ [stem]) (lg ++ r.2)
    | none => runLoop o rest st res (att ++ [stem]) (lg ++ r.2)

/-- The final merge of `process_all`: previously-completed stems whose
recorded path still exists are added to the result mapping from the current
checkpoint state. -/
def mergeCompleted (fs : String → Bool) (st : MeshState) :
    List String → List (String × String) → List (String × String)
  | [], res => res
  | s :: rest, res =>
    let path := (lookupRes st.results s).getD ""
    if !(path == "") && fs path then mergeCompleted fs st rest (pythonInsert res s path)
    else mergeCompleted fs st rest res

/-- `Image2MeshGenerator.process_all` with a resumable state present (the
script always constructs one: `ENABLE_RESUMABLE_MODE = True`).  `o` is the
per-item pipeline keyed by stem (`process_one`); `images` is the
`get_image_files` enumeration. -/
def process_all (fs : String → Bool) (o : String → Option String × List String)
    (st : MeshState) (images : List (String × String)) (force : Bool) : RunOutput :=
  if images.isEmpty then ⟨[], [], [], st, []⟩
  else if (toProcessOf fs (cleanedState fs st) images force).isEmpty then
    ⟨(completedStemsOf fs (cleanedState fs st) images).map
        (fun s => (s, (lookupRes (cleanedState fs st).results s).getD "")),
      [], completedStemsOf fs (cleanedState fs st) images, cleanedState fs st, []⟩
  else
    ⟨mergeCompleted fs
        (runLoop o (toProcessOf fs (cleanedState fs st) images force)
          (cleanedState fs st) [] [] []).state
        (completedStemsOf fs (cleanedState fs st) images)
        (runLoop o (toProcessOf fs (cleanedState fs st) images force)
          (cleanedState fs st) [] [] []).results,
      (runLoop o (toProcessOf fs (cleanedState fs st) images force)
        (cleanedState fs st) [] [] []).attempted,
      completedStemsOf fs (cleanedState fs st) images,
      (runLoop o (toProcessOf fs (cleanedState fs st) images force)
        (cleanedState fs st) [] [] []).state,
      (runLoop o (toProcessOf fs (cleanedState fs st) images force)
        (cleanedState fs st) [] [] []).logs⟩

/-- The whole batch against a concrete backend: `process_one` is the
per-item pipeline. -/
def process_all_backend (fs : String → Bool) (backend : String → BackendItem)
    (outDir : String) (st : MeshState) (images : List (String × String))
    (force : Bool) : RunOutput :=
  process_all fs (fun stem => process_one outDir stem (backend stem)) st images force

/-! ### Basic lemmas about the loops -/

theorem runLoop_attempted (o : String → Option String × List String)
    (l : List (String × String)) (st : MeshState) (res : List (String × String))
    (att lg : List String) :
    (runLoop o l st res att lg).attempted = att ++ l.map (·.2) := by
  induction l generalizing st res att lg with
  | nil => simp [runLoop]
  | cons i rest ih =>
    obtain ⟨p, stem⟩ := i
    simp only [runLoop]
    cases h : (o stem).1 with
    | none => simp [ih]
    | some out =>
      by_cases hout : out == ""
      · simp [hout, ih]
      · simp only [hout]
        simp [ih]

theorem runLoop_logs (o : String → Option String × List String)
    (l : List (String × String)) (st : MeshState) (res : List (String × String))
    (att lg : List String) :
    (runLoop o l st res att lg).logs = lg ++ l.flatMap (fun i => (o i.2).2) := by
  induction l generalizing st res att lg with
  | nil => simp [runLoop]
  | cons i rest ih =>
    obtain ⟨p, stem⟩ := i
    simp only [runLoop]
    cases h : (o stem).1 with
    | none => simp [ih]
    | some out =>
      by_cases hout : out == ""
      · simp [hout, ih]
      · simp only [hout]
        simp [ih]

/-! ### C2: completion test -/

/-- C2.  `is_mesh_complete` holds exactly when the checkpoint has an entry
for the stem whose recorded path is nonempty and exists on disk; with no
entry, an empty recorded path, or a missing file it is `false`. -/
theorem c2_is_mesh_complete_iff (fs : String → Bool) (st : MeshState) (stem : String) :
    is_mesh_complete fs st stem = true ↔
      ∃ path, lookupRes st.results stem = some path ∧ path ≠ "" ∧ fs path = true := by
  unfold is_mesh_complete
  cases h : lookupRes st.results stem with
  | none => simp
  | some path =>
    simp only [Bool.and_eq_true, Bool.not_eq_true']
    constructor
    · rintro ⟨hne, hfs⟩
      exact ⟨path, rfl, by simpa using hne, hfs⟩
    · rintro ⟨p, hp, hne, hfs⟩
      cases hp
      exact ⟨by simpa using hne, hfs⟩

/-! ### C4: checkpoint loading never fails the run -/

/-- C4.  A missing checkpoint file loads as the empty document; a corrupt one
loads as the empty document with a warning line, identical to starting
fresh; in a readable document, unknown extra keys do not change the
operational `meshes` state. -/
theorem c4_load_state_spec :
    (load_state .missing).1 = ⟨emptyMeshState, []⟩ ∧
    (∀ e, (load_state (.corrupt e)).1 = ⟨emptyMeshState, []⟩ ∧
      (load_state (.corrupt e)).2 ≠ [] ∧
      (load_state (.corrupt e)).1 = (load_state .missing).1) ∧
    (∀ m extra, (load_state (.readable ⟨m, extra⟩)).1.meshes = m) ∧
    (load_state .missing).2 = [] := by
  refine ⟨rfl, fun e => ⟨rfl, by simp [load_state], rfl⟩, fun m extra => rfl, rfl⟩

/-! ### C8: force flags -/

/-- C8.  With `force_regenerate` every enumerated item is handed to the
per-item pipeline, valid checkpoint entries notwithstanding; with
`force_start` the checkpoint document is removed before loading (also when
it never existed), so after construction no stem is complete. -/
theorem c8_force_flags :
    (∀ (fs : String → Bool) o st images,
      (process_all fs o st images true).attempted = images.map (·.2)) ∧
    (∀ (disk : DiskDoc) (fs : String → Bool) (stem : String),
      is_mesh_complete fs (resumable_init true disk).meshes stem = false) := by
  constructor
  · intro fs o st images
    unfold process_all
    by_cases hempty : images.isEmpty
    · simp [hempty, List.isEmpty_iff.mp hempty]
    · have htp : toProcessOf fs (cleanedState fs st) images true = images := by
        simp [toProcessOf]
      simp only [hempty, if_false, htp]
      by_cases h2 : images.isEmpty
      · exact absurd h2 hempty
      · simp [h2, runLoop_attempted]
  · intro disk fs stem
    rfl

/-! ### C9: poll timeout is not fatal to the item -/

theorem waitLoop_false_of_no_done (obs : Nat → PollObs) :
    ∀ (n i : Nat), (∀ j, j < n → obs (i + j) ≠ .done) → (waitLoop obs n i).1 = false := by
  intro n
  induction n with
  | zero => intro i _; rfl
  | succ k ih =>
    intro i h
    have h0 : obs i ≠ .done := by simpa using h 0 (Nat.succ_pos k)
    have hrest : ∀ j, j < k → obs (i + 1 + j) ≠ .done := by
      intro j hj
      have := h (j + 1) (by omega)
      simpa [Nat.add_assoc, Nat.add_comm 1 j] using this
    cases hobs : obs i with
    | done => exact absurd hobs h0
    | pending => simpa [waitLoop, hobs] using ih (i + 1) hrest
    | exn m => simpa [waitLoop, hobs] using ih (i + 1) hrest

/-- C9.  When no poll within the time budget reports completion, the wait
returns `false` (timeout); and whenever submission produced a job id, the
item's result is exactly the harvest result, whatever the poll trace and
budget did — so a timeout alone never fails the item, which fails only if
harvesting finds no output. -/
theorem c9_timeout_proceeds_to_harvest :
    (∀ (obs : Nat → PollObs) (n : Nat), (∀ j, j < n → obs j ≠ .done) →
      (wait_for_completion obs n).1 = false) ∧
    (∀ (outDir stem : String) (b : BackendItem),
      ((queue_prompt b.queue).1).isSome →
      (process_one outDir stem b).1 = (copy_glbs b.copyFails outDir stem b.files).primary) := by
  constructor
  · intro obs n h
    exact waitLoop_false_of_no_done obs n 0 (by simpa using h)
  · intro outDir stem b hq
    unfold process_one
    cases hq1 : (queue_prompt b.queue).1 with
    | none => simp [hq1] at hq
    | some pid =>
      cases hp : (copy_glbs b.copyFails outDir stem b.files).primary <;>
        simp [hq1, hp]

/-- Concrete check for C9: a three-poll budget that never observes
completion times out, and the item nevertheless harvests its output. -/
theorem c9_witness :
    (∀ j, j < 3 → (fun _ => PollObs.pending) j ≠ .done) ∧
    ((queue_prompt (QueueResult.ok "77")).1).isSome ∧
    (wait_for_completion (fun _ => PollObs.pending) 3).1 = false ∧
    (process_one "out" "item"
        ⟨QueueResult.ok "77", fun _ => PollObs.pending, 3,
          [("item_Textured_00001_.glb", 2)], fun _ => false⟩).1 =
      (copy_glbs (fun _ => false) "out" "item" [("item_Textured_00001_.glb", 2)]).primary := by
  refine ⟨by intro j _; simp, by decide, ?_, ?_⟩
  · exact c9_timeout_proceeds_to_harvest.1 (fun _ => PollObs.pending) 3 (by intro j _; simp)
  · exact c9_timeout_proceeds_to_harvest.2 "out" "item" _ (by decide)

/-! ### C5: harvest naming and per-variant dedup -/

instance : IsTotal (String × Int) (fun a b => b.2 ≤ a.2) :=
  ⟨fun a b => le_total b.2 a.2⟩

instance : IsTrans (String × Int) (fun a b => b.2 ≤ a.2) :=
  ⟨fun _ _ _ h1 h2 => le_trans h2 h1⟩

/-- In the copy loop over a newest-first candidate list, every copy that is
made is for a variant not yet seen, and its source has maximal mtime among
all candidates reducing to the same variant. -/
theorem copyLoop_kept_newest (cf : String → Bool) (outDir stem : String) :
    ∀ (cands : List (String × Int)) (seen : List String) (prim : Option String)
      (cps : List ((String × Int) × String)) (lg : List String)
      (src : String) (m : Int) (out : String),
      cands.Sorted (fun a b => b.2 ≤ a.2) →
      ((src, m), out) ∈ (copyLoop cf outDir stem cands seen prim cps lg).copies →
      ((src, m), out) ∈ cps ∨
        ∃ v, variantOf stem src = some v ∧ v ∉ seen ∧ (src, m) ∈ cands ∧
          ∀ n' m', (n', m') ∈ cands → variantOf stem n' = some v → m' ≤ m := by
  intro cands
  induction cands with
  | nil =>
    intro seen prim cps lg src m out _ hmem
    exact Or.inl hmem
  | cons hd rest ih =>
    obtain ⟨name, mt⟩ := hd
    intro seen prim cps lg src m out hsort hmem
    have hrel : ∀ b ∈ rest, b.2 ≤ mt := (List.sorted_cons.mp hsort).1
    have hsort' : rest.Sorted (fun a b => b.2 ≤ a.2) := (List.sorted_cons.mp hsort).2
    cases hv : variantOf stem name with
    | none =>
      simp only [copyLoop, hv] at hmem
      rcases ih seen prim cps lg src m out hsort' hmem with h | ⟨v, hsrc, hns, hmemc, hall⟩
      · exact Or.inl h
      · refine Or.inr ⟨v, hsrc, hns, List.mem_cons_of_mem _ hmemc, ?_⟩
        intro n' m' hn hvn
        rcases List.mem_cons.mp hn with heq | hn'
        · obtain ⟨h1, h2⟩ := Prod.mk.injEq .. ▸ heq
          rw [h1] at hvn
          rw [hv] at hvn
          cases hvn
        · exact hall n' m' hn' hvn
    | some suf =>
      by_cases hseen : seen.contains suf
      · simp only [copyLoop, hv, hseen, if_true] at hmem
        rcases ih seen prim cps lg src m out hsort' hmem with h | ⟨v, hsrc, hns, hmemc, hall⟩
        · exact Or.inl h
        · refine Or.inr ⟨v, hsrc, hns, List.mem_cons_of_mem _ hmemc, ?_⟩
          intro n' m' hn hvn
          rcases List.mem_cons.mp hn with heq | hn'
          · obtain ⟨h1, h2⟩ := Prod.mk.injEq .. ▸ heq
            rw [h1, hv] at hvn
            have : suf = v := by injection hvn
            exact absurd (this ▸ List.mem_of_elem_eq_true hseen) hns
          · exact hall n' m' hn' hvn
      · by_cases hcf : cf (outDir ++ "/" ++
            (if suf == "Textured" then stem ++ ".glb" else stem ++ "_" ++ suf ++ ".glb"))
        · simp only [copyLoop, hv, hseen, if_false, hcf, if_true] at hmem
          rcases ih (seen ++ [suf]) prim cps _ src m out hsort' hmem with
            h | ⟨v, hsrc, hns, hmemc, hall⟩
          · exact Or.inl h
          · have hvsuf : v ≠ suf := by
              intro hvs
              exact hns (hvs ▸ List.mem_append_right _ (List.mem_singleton_self _))
            refine Or.inr ⟨v, hsrc, fun hmv => hns (List.mem_append_left _ hmv),
              List.mem_cons_of_mem _ hmemc, ?_⟩
            intro n' m' hn hvn
            rcases List.mem_cons.mp hn with heq | hn'
            · obtain ⟨h1, h2⟩ := Prod.mk.injEq .. ▸ heq
              rw [h1, hv] at hvn
              have : suf = v := by injection hvn
              exact absurd this.symm hvsuf
            · exact hall n' m' hn' hvn
        · simp only [copyLoop, hv, hseen, if_false, hcf] at hmem
          rcases ih (seen ++ [suf]) _ (cps ++ [((name, mt),
              outDir ++ "/" ++ (if suf == "Textured" then stem ++ ".glb"
                else stem ++ "_" ++ suf ++ ".glb"))]) _ src m out hsort' hmem with
            h | ⟨v, hsrc, hns, hmemc, hall⟩
          · rcases List.mem_append.mp h with hcps | hnew
            · exact Or.inl hcps
            · have heq := List.mem_singleton.mp hnew
              obtain ⟨hsm, hout⟩ := Prod.mk.injEq .. ▸ heq
              obtain ⟨hs, hm⟩ := Prod.mk.injEq .. ▸ hsm
              subst hs hm
              refine Or.inr ⟨suf, hv, fun hmv => (hseen (List.elem_eq_true_of_mem hmv)).elim,
                List.mem_cons_self _ _, ?_⟩
              intro n' m' hn _
              rcases List.mem_cons.mp hn with heq' | hn'
              · obtain ⟨h1, h2⟩ := Prod.mk.injEq .. ▸ heq'
                exact le_of_eq h2
              · exact hrel _ hn'
          · have hvsuf : v ≠ suf := by
              intro hvs
              exact hns (hvs ▸ List.mem_append_right _ (List.mem_singleton_self _))
            refine Or.inr ⟨v, hsrc, fun hmv => hns (List.mem_append_left _ hmv),
              List.mem_cons_of_mem _ hmemc, ?_⟩
            intro n' m' hn hvn
            rcases List.mem_cons.mp hn with heq | hn'
            · obtain ⟨h1, h2⟩ := Prod.mk.injEq .. ▸ heq
              rw [h1, hv] at hvn
              have : suf = v := by injection hvn
              exact absurd this.symm hvsuf
            · exact hall n' m' hn' hvn

/-- C5.  On the spec's three backend files the harvester copies exactly
`item.glb`, `item_WhiteMesh.glb`, `item_Refined.glb` and reports `item.glb`
as primary; and in general a copied file's mtime is maximal among all
candidate files reducing to the same logical variant (only the newest per
variant is kept). -/
theorem c5_harvest_naming :
    ((copy_glbs (fun _ => false) "out" "item"
        [("item_Textured_00002_.glb", 5), ("item_WhiteMesh_00001_.glb", 3),
          ("item_Refined_00001_.glb", 1)]).copies.map (·.2) =
        ["out/item.glb", "out/item_WhiteMesh.glb", "out/item_Refined.glb"] ∧
      (copy_glbs (fun _ => false) "out" "item"
        [("item_Textured_00002_.glb", 5), ("item_WhiteMesh_00001_.glb", 3),
          ("item_Refined_00001_.glb", 1)]).primary = some "out/item.glb") ∧
    (∀ (cf : String → Bool) (outDir stem : String) (files : List (String × Int))
        (src : String) (m : Int) (out : String),
      ((src, m), out) ∈ (copy_glbs cf outDir stem files).copies →
      ∀ n' m', (n', m') ∈ files → isGlbFile n' = true → nameMatches stem n' = true →
        variantOf stem n' = variantOf stem src → m' ≤ m) := by
  refine ⟨⟨by rfl, by rfl⟩, ?_⟩
  intro cf outDir stem files src m out hmem n' m' hn hglb hmatch hvar
  unfold copy_glbs at hmem
  by_cases hc : (list_glbs_matching stem files).isEmpty
  · simp [hc] at hmem
  · simp only [hc, if_false] at hmem
    have hsort : (list_glbs_matching stem files).Sorted (fun a b => b.2 ≤ a.2) :=
      List.sorted_insertionSort _ _
    rcases copyLoop_kept_newest cf outDir stem _ [] none [] [] src m out hsort hmem with
      h | ⟨v, hsrc, _, _, hall⟩
    · simp at h
    · refine hall n' m' ?_ (hvar.trans hsrc)
      have hf : (n', m') ∈ files.filter (fun f => isGlbFile f.1 && nameMatches stem f.1) :=
        List.mem_filter.mpr ⟨hn, by simp [hglb, hmatch]⟩
      exact (List.perm_insertionSort _ _).mem_iff.mpr hf

/-- Concrete check for C5's dedup clause: of two `Textured` candidates the
mtime-5 one is the copy that is kept, and the mtime-2 one is older. -/
theorem c5_witness :
    ((("item_Textured_00002_.glb" : String), (5 : Int)), ("out/item.glb" : String)) ∈
        (copy_glbs (fun _ => false) "out" "item"
          [("item_Textured_00001_.glb", 2), ("item_Textured_00002_.glb", 5)]).copies ∧
      (2 : Int) ≤ 5 := by
  refine ⟨by decide, ?_⟩
  exact c5_harvest_naming.2 (fun _ => false) "out" "item"
    [("item_Textured_00001_.glb", 2), ("item_Textured_00002_.glb", 5)]
    "item_Textured_00002_.glb" 5 "out/item.glb"
    (by decide) "item_Textured_00001_.glb" 2
    (by decide) (by decide) (by decide) (by decide)

/-! ### Dictionary and lookup lemmas -/

theorem beq_false_of_ne {a b : String} (h : ¬a = b) : (a == b) = false := by
  simpa using h

theorem lookupRes_cons_self (k v : String) (rs : List (String × String)) :
    lookupRes ((k, v) :: rs) k = some v := by
  simp [lookupRes, List.find?]

theorem lookupRes_cons_ne (k v : String) (rs : List (String × String)) (s : String)
    (h : ¬k = s) : lookupRes ((k, v) :: rs) s = lookupRes rs s := by
  simp [lookupRes, List.find?, beq_false_of_ne h]

theorem lookup_pythonInsert (rs : List (String × String)) (k v s : String) :
    lookupRes (pythonInsert rs k v) s = if s == k then some v else lookupRes rs s := by
  induction rs with
  | nil =>
    by_cases h : s = k
    · subst h; simp [pythonInsert, lookupRes, List.find?]
    · simp [pythonInsert, lookupRes, List.find?, beq_false_of_ne h,
        beq_false_of_ne (fun hh => h hh.symm)]
  | cons hd rest ih =>
    obtain ⟨k', v'⟩ := hd
    by_cases hk : k' = k
    · subst hk
      by_cases hs : s = k'
      · subst hs
        simp [pythonInsert, lookupRes_cons_self]
      · simp [pythonInsert, lookupRes_cons_ne _ _ _ _ (fun hh => hs hh.symm),
          beq_false_of_ne hs]
    · rw [show pythonInsert ((k', v') :: rest) k v = (k', v') :: pythonInsert rest k v by
        simp [pythonInsert, beq_false_of_ne hk]]
      by_cases hs : s = k'
      · subst hs
        have hsk : ¬s = k := fun hh => hk (hh ▸ rfl)
        rw [lookupRes_cons_self, lookupRes_cons_self]
        simp [beq_false_of_ne hsk]
      · rw [lookupRes_cons_ne _ _ _ _ (fun hh => hs hh.symm),
          lookupRes_cons_ne _ _ _ _ (fun hh => hs hh.symm), ih]

theorem lookupRes_filter_key (q : String → Bool) (rs : List (String × String)) (s : String) :
    lookupRes (rs.filter (fun p => !(q p.1))) s = if q s then none else lookupRes rs s := by
  induction rs with
  | nil => by_cases h : q s <;> simp [lookupRes, h]
  | cons hd rest ih =>
    obtain ⟨k, v⟩ := hd
    by_cases hq : q k
    · rw [show ((k, v) :: rest).filter (fun p => !(q p.1)) =
          rest.filter (fun p => !(q p.1)) by simp [List.filter_cons, hq]]
      by_cases hs : s = k
      · subst hs
        simp [hq, ih]
      · rw [ih, lookupRes_cons_ne _ _ _ _ (fun hh => hs hh.symm)]
    · rw [show ((k, v) :: rest).filter (fun p => !(q p.1)) =
          (k, v) :: rest.filter (fun p => !(q p.1)) by simp [List.filter_cons, hq]]
      by_cases hs : s = k
      · subst hs
        rw [lookupRes_cons_self, lookupRes_cons_self]
        simp [hq]
      · rw [lookupRes_cons_ne _ _ _ _ (fun hh => hs hh.symm),
          lookupRes_cons_ne _ _ _ _ (fun hh => hs hh.symm), ih]

theorem lookup_map_self (g : String → String) (cs : List String) (s : String) :
    lookupRes (cs.map (fun t => (t, g t))) s =
      if cs.contains s then some (g s) else none := by
  induction cs with
  | nil => simp [lookupRes]
  | cons c rest ih =>
    by_cases hs : s = c
    · subst hs
      simp [lookupRes_cons_self]
    · rw [List.map_cons, lookupRes_cons_ne _ _ _ _ (fun hh => hs hh.symm), ih]
      simp [List.contains_cons, beq_false_of_ne hs, hs]

theorem lookup_isSome_iff_mem_keys (rs : List (String × String)) (s : String) :
    (lookupRes rs s).isSome = true ↔ s ∈ rs.map (·.1) := by
  induction rs with
  | nil => simp [lookupRes]
  | cons hd rest ih =>
    obtain ⟨k, v⟩ := hd
    by_cases hs : s = k
    · subst hs
      simp [lookupRes_cons_self]
    · rw [lookupRes_cons_ne _ _ _ _ (fun hh => hs hh.symm)]
      simp [ih, List.mem_cons, hs]

theorem is_mesh_complete_eq_not_stale (fs : String → Bool) (st : MeshState) (s : String) :
    is_mesh_complete fs st s = !(entryStale fs st.results s) := by
  unfold is_mesh_complete entryStale
  cases h : lookupRes st.results s with
  | none => simp [h]
  | some p =>
    by_cases hp : p == "" <;> simp [h, hp]

theorem mem_dedupKeepFirst (s : String) : ∀ (l : List String),
    s ∈ dedupKeepFirst l ↔ s ∈ l := by
  intro l
  induction l with
  | nil => simp [dedupKeepFirst]
  | cons c rest ih =>
    by_cases hs : s = c
    · subst hs; simp [dedupKeepFirst]
    · simp [dedupKeepFirst, hs, List.mem_filter, ih]

theorem nodup_dedupKeepFirst : ∀ (l : List String), (dedupKeepFirst l).Nodup := by
  intro l
  induction l with
  | nil => simp [dedupKeepFirst]
  | cons c rest ih =>
    simp only [dedupKeepFirst, List.nodup_cons]
    refine ⟨fun hmem => ?_, ih.filter _⟩
    have := (List.mem_filter.mp hmem).2
    simp at this

theorem set_mesh_result_nodup (st : MeshState) (stem path : String)
    (h : st.completed.Nodup) : (set_mesh_result st stem path).completed.Nodup := by
  unfold set_mesh_result
  by_cases hc : stem ∈ st.completed
  · simpa [hc] using h
  · rw [if_neg (by simpa using hc)]
    refine List.Nodup.append h (List.nodup_singleton _) ?_
    intro a ha hb
    have : a = stem := by simpa using hb
    subst this
    exact hc ha

/-! ### Characterization of `validate_and_cleanup_results` -/

theorem cleanupLoop_spec (fs : String → Bool) (E : String → Bool) :
    ∀ (snap : List String) (st : MeshState) (removed : Nat),
      snap.Nodup → st.completed.Nodup →
      (∀ s ∈ snap, entryStale fs st.results s = E s) →
      (cleanupLoop fs snap st removed).2 = removed + (snap.filter E).length ∧
      (cleanupLoop fs snap st removed).1.completed
          = st.completed.filter (fun s => !(snap.contains s && E s)) ∧
      (cleanupLoop fs snap st removed).1.results
          = st.results.filter (fun p => !(snap.contains p.1 && E p.1)) := by
  intro snap
  induction snap with
  | nil =>
    intro st removed _ _ _
    exact ⟨by simp [cleanupLoop], by simp [cleanupLoop], by simp [cleanupLoop]⟩
  | cons s rest ih =>
    intro st removed hsnap hcomp hagree
    have hs : entryStale fs st.results s = E s := hagree s (List.mem_cons_self _ _)
    have hsrest : s ∉ rest := (List.nodup_cons.mp hsnap).1
    have hrestnd : rest.Nodup := (List.nodup_cons.mp hsnap).2
    by_cases hE : E s = true
    · have hstale : entryStale fs st.results s = true := hs.trans hE
      simp only [cleanupLoop, hstale, if_true]
      set st' : MeshState :=
        ⟨st.completed.erase s, st.results.filter (fun p => !(p.1 == s))⟩ with hst'
      have hcomp' : st'.completed.Nodup := hcomp.erase s
      have hagree' : ∀ t ∈ rest, entryStale fs st'.results t = E t := by
        intro t ht
        have hts : ¬t = s := fun h => hsrest (h ▸ ht)
        have : lookupRes st'.results t = lookupRes st.results t := by
          have := lookupRes_filter_key (fun k => k == s) st.results t
          simpa [beq_false_of_ne hts] using this
        unfold entryStale
        rw [this]
        exact hagree t (List.mem_cons_of_mem _ ht)
      obtain ⟨hcount, hcompl, hres⟩ := ih st' (removed + 1) hrestnd hcomp' hagree'
      refine ⟨?_, ?_, ?_⟩
      · rw [hcount]
        simp [List.filter_cons, hE]
        omega
      · rw [hcompl, hst']
        show (st.completed.erase s).filter _ = _
        rw [hcomp.erase_eq_filter s, List.filter_filter]
        refine List.filter_congr ?_
        intro t _
        by_cases hts : t = s
        · subst hts
          simp [hE]
        · by_cases h1 : t ∈ rest <;> by_cases h2 : E t = true <;>
            simp [hts, h1, h2, List.contains_cons]
      · rw [hres, hst']
        show (st.results.filter _).filter _ = _
        rw [List.filter_filter]
        refine List.filter_congr ?_
        intro p _
        by_cases hps : p.1 = s
        · simp [hps, hE]
        · by_cases h1 : p.1 ∈ rest <;> by_cases h2 : E p.1 = true <;>
            simp [hps, h1, h2, List.contains_cons]
    · have hEs : E s = false := by simpa using hE
      have hstale : entryStale fs st.results s = false := hs.trans hEs
      simp only [cleanupLoop, hstale, Bool.false_eq_true, if_false]
      obtain ⟨hcount, hcompl, hres⟩ :=
        ih st removed hrestnd hcomp (fun t ht => hagree t (List.mem_cons_of_mem _ ht))
      refine ⟨?_, ?_, ?_⟩
      · rw [hcount]
        simp [List.filter_cons, hEs]
      · rw [hcompl]
        refine List.filter_congr ?_
        intro t _
        by_cases hts : t = s
        · subst hts
          simp [hEs]
        · by_cases h1 : t ∈ rest <;> by_cases h2 : E t = true <;>
            simp [hts, h1, h2, List.contains_cons]
      · rw [hres]
        refine List.filter_congr ?_
        intro p _
        by_cases hps : p.1 = s
        · simp [hps, hEs]
        · by_cases h1 : p.1 ∈ rest <;> by_cases h2 : E p.1 = true <;>
            simp [hps, h1, h2, List.contains_cons]

/-- The full characterization of `validate_and_cleanup_results` on a
duplicate-free completed list. -/
theorem cleanup_spec (fs : String → Bool) (st : MeshState) (h : st.completed.Nodup) :
    (validate_and_cleanup_results fs st).1.completed
        = st.completed.filter (fun s => !(entryStale fs st.results s)) ∧
    (validate_and_cleanup_results fs st).1.results
        = st.results.filter (fun p =>
            !(st.completed.contains p.1 && entryStale fs st.results p.1)) ∧
    (validate_and_cleanup_results fs st).2.1
        = (st.completed.filter (fun s => entryStale fs st.results s)).length ∧
    (validate_and_cleanup_results fs st).2.2
        = ((validate_and_cleanup_results fs st).2.1 != 0) := by
  obtain ⟨hcount, hcompl, hres⟩ :=
    cleanupLoop_spec fs (entryStale fs st.results) st.completed st 0 h h (fun _ _ => rfl)
  refine ⟨?_, ?_, ?_, rfl⟩
  · rw [show (validate_and_cleanup_results fs st).1 = (cleanupLoop fs st.completed st 0).1
      from rfl, hcompl]
    refine List.filter_congr ?_
    intro s hsmem
    have hc : st.completed.contains s = true := List.elem_eq_true_of_mem hsmem
    rw [hc]
    simp
  · rw [show (validate_and_cleanup_results fs st).1 = (cleanupLoop fs st.completed st 0).1
      from rfl, hres]
  · rw [show (validate_and_cleanup_results fs st).2.1 = (cleanupLoop fs st.completed st 0).2
      from rfl, hcount]
    simp

/-! ### C3: reconcile evicts exactly the stale completed entries -/

/-- C3.  On a duplicate-free completed list, `validate_and_cleanup_results`
removes from the completed list and from the results map exactly the
completed identifiers whose recorded path is empty, missing, or absent on
disk (first conjunct characterizes that staleness test), returns their
count, persists iff that count is nonzero, and the coordinator computes its
completed/pending partition from the reconciled state. -/
theorem c3_reconcile_spec (fs : String → Bool) (st : MeshState)
    (h : st.completed.Nodup) :
    (∀ s, entryStale fs st.results s = false ↔
      ∃ p, lookupRes st.results s = some p ∧ p ≠ "" ∧ fs p = true) ∧
    (validate_and_cleanup_results fs st).1.completed
        = st.completed.filter (fun s => !(entryStale fs st.results s)) ∧
    (validate_and_cleanup_results fs st).1.results
        = st.results.filter (fun p =>
            !(st.completed.contains p.1 && entryStale fs st.results p.1)) ∧
    (validate_and_cleanup_results fs st).2.1
        = (st.completed.filter (fun s => entryStale fs st.results s)).length ∧
    ((validate_and_cleanup_results fs st).2.2 = true ↔
      (validate_and_cleanup_results fs st).2.1 ≠ 0) ∧
    (∀ o images force, (process_all fs o st images force).completedStems
        = if images.isEmpty then []
          else completedStemsOf fs (cleanedState fs st) images) := by
  obtain ⟨hcompl, hres, hcount, hsaved⟩ := cleanup_spec fs st h
  refine ⟨?_, hcompl, hres, hcount, ?_, ?_⟩
  · intro s
    unfold entryStale
    cases hl : lookupRes st.results s with
    | none => simp [hl]
    | some p =>
      by_cases hp : p = ""
      · subst hp; simp [hl]
      · by_cases hfs : fs p <;> simp [hl, hp, hfs]
  · rw [hsaved]
    cases hn : (validate_and_cleanup_results fs st).2.1 <;> simp [hn]
  · intro o images force
    unfold process_all
    by_cases he : images.isEmpty
    · simp [he]
    · simp only [he, if_false]
      by_cases ht : (toProcessOf fs (cleanedState fs st) images force).isEmpty <;>
        simp [ht]

/-- Concrete check for C3: with `y`'s recorded file gone, reconcile drops
exactly `y` from the completed list. -/
theorem c3_witness :
    (["x", "y"] : List String).Nodup ∧
      (validate_and_cleanup_results (fun p => p == "out/x.glb")
          ⟨["x", "y"], [("x", "out/x.glb"), ("y", "out/y.glb")]⟩).1.completed
        = (["x", "y"] : List String).filter
            (fun s => !(entryStale (fun p => p == "out/x.glb")
              [("x", "out/x.glb"), ("y", "out/y.glb")] s)) :=
  ⟨by decide,
    (c3_reconcile_spec (fun p => p == "out/x.glb")
      ⟨["x", "y"], [("x", "out/x.glb"), ("y", "out/y.glb")]⟩ (by decide)).2.1⟩

/-! ### C10: the completed/results key invariant is preserved -/

/-- C10.  If the completed list is duplicate-free and lists exactly the keys
of the results map, then both `set_mesh_result` and
`validate_and_cleanup_results` preserve that invariant. -/
theorem c10_invariant_preserved (fs : String → Bool) (st : MeshState)
    (h : invariant st) (stem path : String) :
    invariant (set_mesh_result st stem path) ∧
    invariant (validate_and_cleanup_results fs st).1 := by
  obtain ⟨hnd, hfwd, hbwd⟩ := h
  have hmemiff : ∀ s, s ∈ st.completed ↔ s ∈ st.results.map (·.1) := by
    intro s
    constructor
    · exact hfwd s
    · intro hk
      obtain ⟨p, hp, hfst⟩ := List.mem_map.mp hk
      exact hfst ▸ hbwd p hp
  have hkeys_lookup : ∀ s, s ∈ st.results.map (·.1) ↔ (lookupRes st.results s).isSome :=
    fun s => (lookup_isSome_iff_mem_keys st.results s).symm
  constructor
  · refine ⟨set_mesh_result_nodup st stem path hnd, ?_, ?_⟩
    · intro s hsmem
      show s ∈ (pythonInsert st.results stem path).map (·.1)
      rw [← lookup_isSome_iff_mem_keys, lookup_pythonInsert]
      by_cases hs : s = stem
      · simp [hs]
      · rw [if_neg (by simpa using hs), lookup_isSome_iff_mem_keys]
        apply hfwd
        have hsmem' : s ∈ (if st.completed.contains stem then st.completed
            else st.completed ++ [stem]) := hsmem
        by_cases hc : st.completed.contains stem
        · rwa [if_pos hc] at hsmem'
        · rw [if_neg hc] at hsmem'
          rcases List.mem_append.mp hsmem' with h1 | h1
          · exact h1
          · exact absurd (List.mem_singleton.mp h1) hs
    · intro p hpmem
      have hpmem' : p ∈ pythonInsert st.results stem path := hpmem
      show p.1 ∈ (if st.completed.contains stem then st.completed
          else st.completed ++ [stem])
      by_cases hs : p.1 = stem
      · by_cases hc : st.completed.contains stem
        · rw [if_pos hc, hs]
          exact List.mem_of_elem_eq_true hc
        · rw [if_neg hc, hs]
          exact List.mem_append_right _ (List.mem_singleton_self _)
      · have hsome : (lookupRes (pythonInsert st.results stem path) p.1).isSome = true := by
          rw [lookup_isSome_iff_mem_keys]
          exact List.mem_map_of_mem _ hpmem'
        rw [lookup_pythonInsert, if_neg (by simpa using hs),
          lookup_isSome_iff_mem_keys] at hsome
        have hpc : p.1 ∈ st.completed := (hmemiff p.1).mpr hsome
        by_cases hc : st.completed.contains stem
        · rw [if_pos hc]; exact hpc
        · rw [if_neg hc]; exact List.mem_append_left _ hpc
  · obtain ⟨hcompl, hres, _, _⟩ := cleanup_spec fs st hnd
    refine ⟨?_, ?_, ?_⟩
    · rw [hcompl]; exact hnd.filter _
    · intro s hsmem
      rw [hcompl] at hsmem
      have hsc : s ∈ st.completed := List.mem_of_mem_filter hsmem
      have hstale : entryStale fs st.results s = false := by
        have := (List.mem_filter.mp hsmem).2
        simpa using this
      rw [← lookup_isSome_iff_mem_keys, hres,
        lookupRes_filter_key (fun k => st.completed.contains k && entryStale fs st.results k)]
      rw [if_neg (by simp [hstale])]
      rw [lookup_isSome_iff_mem_keys]
      exact hfwd s hsc
    · intro p hpmem
      rw [hres] at hpmem
      obtain ⟨hporig, hkeep⟩ := List.mem_filter.mp hpmem
      have hpc : p.1 ∈ st.completed := hbwd p hporig
      have hcont : st.completed.contains p.1 = true := List.elem_eq_true_of_mem hpc
      have hns : entryStale fs st.results p.1 = false := by
        cases h : entryStale fs st.results p.1
        · rfl
        · rw [hcont, h] at hkeep
          simp at hkeep
      rw [hcompl]
      exact List.mem_filter.mpr ⟨hpc, by simp [hns]⟩

/-- Concrete check for C10: the invariant holds of a one-entry state and is
preserved by recording a new result and by reconciling. -/
theorem c10_witness :
    invariant ⟨["x"], [("x", "px")]⟩ ∧
      (invariant (set_mesh_result ⟨["x"], [("x", "px")]⟩ "y" "py") ∧
        invariant (validate_and_cleanup_results (fun _ => false)
          ⟨["x"], [("x", "px")]⟩).1) :=
  ⟨by decide, c10_invariant_preserved (fun _ => false) ⟨["x"], [("x", "px")]⟩ (by decide) "y" "py"⟩

/-! ### Coordinator projections -/

theorem process_all_attempted (fs : String → Bool)
    (o : String → Option String × List String) (st : MeshState)
    (images : List (String × String)) (force : Bool) :
    (process_all fs o st images force).attempted
      = (toProcessOf fs (cleanedState fs st) images force).map (·.2) := by
  unfold process_all
  by_cases he : images.isEmpty
  · have h0 : images = [] := List.isEmpty_iff.mp he
    subst h0
    simp [toProcessOf]
  · simp only [he, if_false]
    by_cases ht : (toProcessOf fs (cleanedState fs st) images force).isEmpty
    · simp [ht, List.isEmpty_iff.mp ht]
    · simp only [ht, if_false]
      simp [runLoop_attempted]

theorem process_all_logs (fs : String → Bool)
    (o : String → Option String × List String) (st : MeshState)
    (images : List (String × String)) (force : Bool) :
    (process_all fs o st images force).logs
      = (toProcessOf fs (cleanedState fs st) images force).flatMap (fun i => (o i.2).2) := by
  unfold process_all
  by_cases he : images.isEmpty
  · have h0 : images = [] := List.isEmpty_iff.mp he
    subst h0
    simp [toProcessOf]
  · simp only [he, if_false]
    by_cases ht : (toProcessOf fs (cleanedState fs st) images force).isEmpty
    · simp [ht, List.isEmpty_iff.mp ht]
    · simp only [ht, if_false]
      simp [runLoop_logs]

/-! ### C6: deterministic sorted sequential processing -/

instance : IsTotal DirEntry (fun a b => a.name.toList ≤ b.name.toList) :=
  ⟨fun _ _ => le_total _ _⟩

instance : IsTrans DirEntry (fun a b => a.name.toList ≤ b.name.toList) :=
  ⟨fun _ _ _ h1 h2 => le_trans h1 h2⟩

/-- C6.  The enumeration is sorted by source filename; the coordinator
attempts exactly the pending items, in that enumeration order; and the
attempted sequence does not depend on the per-item pipeline's outcomes
(backend behaviour); concretely, three pending items `a`, `b`, `c` are
processed in the order `a`, `b`, `c`. -/
theorem c6_sorted_sequential :
    (∀ entries : List DirEntry,
      ((get_image_files entries).map (·.1)).Sorted
        (fun a b : String => a.toList ≤ b.toList)) ∧
    (∀ (fs : String → Bool) o st (entries : List DirEntry) force,
      (process_all fs o st (get_image_files entries) force).attempted
        = ((get_image_files entries).filter (fun i => force ||
            !((completedStemsOf fs (cleanedState fs st)
              (get_image_files entries)).contains i.2))).map (·.2)) ∧
    (∀ (fs : String → Bool) o o' st images force,
      (process_all fs o st images force).attempted
        = (process_all fs o' st images force).attempted) ∧
    (∀ (fs : String → Bool) o,
      (process_all fs o emptyMeshState
        (get_image_files [⟨"b.png", true⟩, ⟨"a.png", true⟩, ⟨"c.png", true⟩])
        false).attempted = ["a", "b", "c"]) := by
  refine ⟨?_, ?_, ?_, ?_⟩
  · intro entries
    have h1 : (List.insertionSort (fun a b : DirEntry => a.name.toList ≤ b.name.toList)
        entries).Sorted (fun a b : DirEntry => a.name.toList ≤ b.name.toList) :=
      List.sorted_insertionSort _ entries
    have h2 := h1.filter
      (fun e => e.isFile && IMAGE_EXTENSIONS.contains (lowerStr (fileSuffix e.name)))
    unfold get_image_files
    rw [List.map_map]
    exact h2.map _ (fun _ _ h => h)
  · intro fs o st entries force
    rw [process_all_attempted]
    rfl
  · intro fs o o' st images force
    rw [process_all_attempted, process_all_attempted]
  · intro fs o
    rw [process_all_attempted]
    have henum : get_image_files [⟨"b.png", true⟩, ⟨"a.png", true⟩, ⟨"c.png", true⟩]
        = [("a.png", "a"), ("b.png", "b"), ("c.png", "c")] := by decide
    rw [henum]
    have hclean : cleanedState fs emptyMeshState = emptyMeshState := rfl
    rw [hclean]
    have hnc : ∀ s, is_mesh_complete fs emptyMeshState s = false := fun _ => rfl
    simp [toProcessOf, completedStemsOf, hnc, dedupKeepFirst]

/-! ### C1: per-item failures are logged and do not abort the batch -/

theorem queue_prompt_none_logs (q : QueueResult) (h : (queue_prompt q).1 = none) :
    (queue_prompt q).2 ≠ [] := by
  cases q with
  | ok pid =>
    by_cases hp : pid == "" <;> simp [queue_prompt, hp] at h ⊢
  | httpError c b => simp [queue_prompt]
  | noPromptId e => simp [queue_prompt]
  | exn m => simp [queue_prompt]

theorem process_one_fail_logs (outDir stem : String) (b : BackendItem)
    (h : (process_one outDir stem b).1 = none) :
    (process_one outDir stem b).2 ≠ [] := by
  unfold process_one at h ⊢
  cases hq : (queue_prompt b.queue).1 with
  | none =>
    simp only [hq]
    exact queue_prompt_none_logs b.queue hq
  | some pid =>
    cases hp : (copy_glbs b.copyFails outDir stem b.files).primary with
    | none => simp [hq, hp]
    | some p => simp [hq, hp] at h

/-- C1.  Every pending item is handed to the per-item pipeline regardless of
other items' outcomes; the run's log is the concatenation of the per-item
logs; a failing item always leaves log lines; and the loop's step on a
failure (resp. success) is exactly "log and continue" (resp. "record and
continue") — no outcome aborts the remaining items. -/
theorem c1_failures_logged_and_continue :
    (∀ (fs : String → Bool) (backend : String → BackendItem) (outDir : String)
        (st : MeshState) (images : List (String × String)) (force : Bool),
      (process_all_backend fs backend outDir st images force).attempted
        = (toProcessOf fs (cleanedState fs st) images force).map (·.2) ∧
      (process_all_backend fs backend outDir st images force).logs
        = (toProcessOf fs (cleanedState fs st) images force).flatMap
            (fun i => (process_one outDir i.2 (backend i.2)).2)) ∧
    (∀ (outDir stem : String) (b : BackendItem),
      (process_one outDir stem b).1 = none → (process_one outDir stem b).2 ≠ []) ∧
    (∀ (o : String → Option String × List String) p stem rest st res att lg,
      (o stem).1 = none →
      runLoop o ((p, stem) :: rest) st res att lg
        = runLoop o rest st res (att ++ [stem]) (lg ++ (o stem).2)) ∧
    (∀ (o : String → Option String × List String) p stem rest st res att lg out,
      (o stem).1 = some out → out ≠ "" →
      runLoop o ((p, stem) :: rest) st res att lg
        = runLoop o rest (set_mesh_result st stem out)
            (pythonInsert res stem out) (att ++ [stem]) (lg ++ (o stem).2)) := by
  refine ⟨?_, process_one_fail_logs, ?_, ?_⟩
  · intro fs backend outDir st images force
    exact ⟨process_all_attempted fs _ st images force,
      process_all_logs fs _ st images force⟩
  · intro o p stem rest st res att lg h
    simp only [runLoop, h]
  · intro o p stem rest st res att lg out h hout
    simp only [runLoop, h, beq_false_of_ne hout, Bool.false_eq_true, if_false]

/-- Concrete check for C1: a backend-unreachable item returns no result but
leaves a log line, and the loop simply moves on past it. -/
theorem c1_witness :
    (process_one "out" "b"
        ⟨.exn "connection refused", fun _ => .done, 3, [], fun _ => false⟩).1 = none ∧
    (process_one "out" "b"
        ⟨.exn "connection refused", fun _ => .done, 3, [], fun _ => false⟩).2 ≠ [] ∧
    ((fun _ : String => ((none : Option String), ["boom"])) "b").1 = none ∧
    runLoop (fun _ => (none, ["boom"])) [("b.png", "b")] emptyMeshState [] [] []
      = runLoop (fun _ => (none, ["boom"])) [] emptyMeshState [] ["b"] ["boom"] := by
  refine ⟨by decide, ?_, by decide, ?_⟩
  · exact c1_failures_logged_and_continue.2.1 "out" "b"
      ⟨.exn "connection refused", fun _ => .done, 3, [], fun _ => false⟩ (by decide)
  · exact c1_failures_logged_and_continue.2.2.1
      (fun _ => (none, ["boom"])) "b.png" "b" [] emptyMeshState [] [] [] rfl

/-! ### Lookup characterizations of the coordinator loop and merge -/

theorem runLoop_lookup_results (o : String → Option String × List String) :
    ∀ (l : List (String × String)) (st : MeshState) (res : List (String × String))
      (att lg : List String) (s : String),
      lookupRes (runLoop o l st res att lg).results s =
        if s ∈ l.map (·.2) ∧ (o s).1.getD "" ≠ "" then some ((o s).1.getD "")
        else lookupRes res s := by
  intro l
  induction l with
  | nil => intro st res att lg s; simp [runLoop]
  | cons i rest ih =>
    obtain ⟨p, stem⟩ := i
    intro st res att lg s
    by_cases hs : s = stem
    · subst hs
      cases h : (o s).1 with
      | none =>
        simp only [runLoop, h, ih]
        simp [h]
      | some out =>
        by_cases hout : out == ""
        · have hout' : out = "" := by simpa using hout
          simp only [runLoop, h, hout, if_true, ih]
          simp [h, hout']
        · have hout' : ¬out = "" := by simpa using hout
          simp only [runLoop, h, hout, Bool.false_eq_true, if_false, ih]
          by_cases hr : s ∈ rest.map (·.2)
          · simp [h, hout', hr]
          · simp [h, hout', hr, lookup_pythonInsert]
    · cases h : (o stem).1 with
      | none =>
        simp only [runLoop, h, ih, List.map_cons]
        exact if_congr (by simp [List.mem_cons, hs]) rfl rfl
      | some out =>
        by_cases hout : out == ""
        · simp only [runLoop, h, hout, if_true, ih, List.map_cons]
          exact if_congr (by simp [List.mem_cons, hs]) rfl rfl
        · simp only [runLoop, h, hout, Bool.false_eq_true, if_false, ih, List.map_cons]
          have hlk : lookupRes (pythonInsert res stem out) s = lookupRes res s := by
            rw [lookup_pythonInsert]
            exact if_neg (by simpa using hs)
          rw [hlk]
          exact if_congr (by simp [List.mem_cons, hs]) rfl rfl

theorem runLoop_lookup_state (o : String → Option String × List String) :
    ∀ (l : List (String × String)) (st : MeshState) (res : List (String × String))
      (att lg : List String) (s : String),
      lookupRes (runLoop o l st res att lg).state.results s =
        if s ∈ l.map (·.2) ∧ (o s).1.getD "" ≠ "" then some ((o s).1.getD "")
        else lookupRes st.results s := by
  intro l
  induction l with
  | nil => intro st res att lg s; simp [runLoop]
  | cons i rest ih =>
    obtain ⟨p, stem⟩ := i
    intro st res att lg s
    by_cases hs : s = stem
    · subst hs
      cases h : (o s).1 with
      | none =>
        simp only [runLoop, h, ih]
        simp [h]
      | some out =>
        by_cases hout : out == ""
        · have hout' : out = "" := by simpa using hout
          simp only [runLoop, h, hout, if_true, ih]
          simp [h, hout']
        · have hout' : ¬out = "" := by simpa using hout
          simp only [runLoop, h, hout, Bool.false_eq_true, if_false, ih]
          by_cases hr : s ∈ rest.map (·.2)
          · simp [h, hout', hr]
          · have hlk : lookupRes (set_mesh_result st s out).results s = some out := by
              show lookupRes (pythonInsert st.results s out) s = some out
              rw [lookup_pythonInsert]
              simp
            simp [h, hout', hr, hlk]
    · cases h : (o stem).1 with
      | none =>
        simp only [runLoop, h, ih, List.map_cons]
        exact if_congr (by simp [List.mem_cons, hs]) rfl rfl
      | some out =>
        by_cases hout : out == ""
        · simp only [runLoop, h, hout, if_true, ih, List.map_cons]
          exact if_congr (by simp [List.mem_cons, hs]) rfl rfl
        · simp only [runLoop, h, hout, Bool.false_eq_true, if_false, ih, List.map_cons]
          have hlk : lookupRes (set_mesh_result st stem out).results s
              = lookupRes st.results s := by
            show lookupRes (pythonInsert st.results stem out) s = _
            rw [lookup_pythonInsert]
            exact if_neg (by simpa using hs)
          rw [hlk]
          exact if_congr (by simp [List.mem_cons, hs]) rfl rfl

theorem runLoop_state_nodup (o : String → Option String × List String) :
    ∀ (l : List (String × String)) (st : MeshState) (res : List (String × String))
      (att lg : List String),
      st.completed.Nodup → (runLoop o l st res att lg).state.completed.Nodup := by
  intro l
  induction l with
  | nil => intro st res att lg h; exact h
  | cons i rest ih =>
    obtain ⟨p, stem⟩ := i
    intro st res att lg h
    cases ho : (o stem).1 with
    | none => simpa only [runLoop, ho] using ih st res _ _ h
    | some out =>
      by_cases hout : out == ""
      · simpa only [runLoop, ho, hout, if_true] using ih st res _ _ h
      · simp only [runLoop, ho, hout, Bool.false_eq_true, if_false]
        exact ih _ _ _ _ (set_mesh_result_nodup st stem out h)

theorem lookup_mergeCompleted (fs : String → Bool) (stM : MeshState) :
    ∀ (cs : List String) (res : List (String × String)) (s : String),
      lookupRes (mergeCompleted fs stM cs res) s =
        if s ∈ cs ∧ (lookupRes stM.results s).getD "" ≠ "" ∧
            fs ((lookupRes stM.results s).getD "") = true then
          some ((lookupRes stM.results s).getD "")
        else lookupRes res s := by
  intro cs
  induction cs with
  | nil => intro res s; simp [mergeCompleted]
  | cons c rest ih =>
    intro res s
    by_cases hv : (!((lookupRes stM.results c).getD "" == "") &&
        fs ((lookupRes stM.results c).getD "")) = true
    · have hv1 : (lookupRes stM.results c).getD "" ≠ "" := by
        have := (Bool.and_eq_true .. ▸ hv).1
        simpa using this
      have hv2 : fs ((lookupRes stM.results c).getD "") = true :=
        (Bool.and_eq_true .. ▸ hv).2
      have hstep : mergeCompleted fs stM (c :: rest) res
          = mergeCompleted fs stM rest
              (pythonInsert res c ((lookupRes stM.results c).getD "")) := by
        simp only [mergeCompleted]
        exact if_pos hv
      rw [hstep, ih]
      by_cases hs : s = c
      · subst hs
        by_cases hr : s ∈ rest
        · rw [if_pos ⟨hr, hv1, hv2⟩, if_pos ⟨List.mem_cons_self _ _, hv1, hv2⟩]
        · rw [if_neg (fun hc => hr hc.1), if_pos ⟨List.mem_cons_self _ _, hv1, hv2⟩,
            lookup_pythonInsert]
          simp
      · have hlk : lookupRes (pythonInsert res c ((lookupRes stM.results c).getD "")) s
            = lookupRes res s := by
          rw [lookup_pythonInsert]
          exact if_neg (by simpa using hs)
        rw [hlk]
        exact if_congr (by simp [List.mem_cons, hs]) rfl rfl
    · have hv' : ¬((lookupRes stM.results s).getD "" ≠ "" ∧
          fs ((lookupRes stM.results s).getD "") = true) ∨ ¬s = c := by
        by_cases hs : s = c
        · subst hs
          left
          intro ⟨h1, h2⟩
          exact hv (by simp [h2, h1])
        · right; exact hs
      have hstep : mergeCompleted fs stM (c :: rest) res = mergeCompleted fs stM rest res := by
        simp only [mergeCompleted]
        exact if_neg hv
      rw [hstep, ih]
      by_cases hs : s = c
      · subst hs
        rcases hv' with hnv | hne
        · rw [if_neg (fun hc => hnv hc.2), if_neg (fun hc => hnv hc.2)]
        · exact absurd rfl hne
      · exact if_congr (by simp [List.mem_cons, hs]) rfl rfl

theorem cleanedState_completed_nodup (fs : String → Bool) (st : MeshState)
    (h : st.completed.Nodup) : (cleanedState fs st).completed.Nodup := by
  unfold cleanedState
  rw [(cleanup_spec fs st h).1]
  exact h.filter _

theorem lookup_cleanedState (fs : String → Bool) (st : MeshState)
    (h : st.completed.Nodup) (s : String) :
    lookupRes (cleanedState fs st).results s =
      if s ∈ st.completed ∧ entryStale fs st.results s = true then none
      else lookupRes st.results s := by
  unfold cleanedState
  rw [(cleanup_spec fs st h).2.1]
  rw [lookupRes_filter_key
    (fun k => st.completed.contains k && entryStale fs st.results k) st.results s]
  by_cases h1 : s ∈ st.completed
  · have hc : st.completed.contains s = true := List.elem_eq_true_of_mem h1
    by_cases h2 : entryStale fs st.results s = true
    · rw [if_pos (by rw [hc, h2]; rfl), if_pos ⟨h1, h2⟩]
    · have h2' : entryStale fs st.results s = false := by simpa using h2
      rw [if_neg (by rw [hc, h2']; simp), if_neg (fun hc2 => h2 hc2.2)]
  · have hc : st.completed.contains s = false := by
      rcases Bool.eq_false_or_eq_true (st.completed.contains s) with hh | hh
      · exact absurd (List.mem_of_elem_eq_true hh) h1
      · exact hh
    rw [if_neg (by rw [hc]; simp), if_neg (fun hc2 => h1 hc2.1)]

theorem mem_completedStemsOf (fs : String → Bool) (st1 : MeshState)
    (images : List (String × String)) (s : String) :
    s ∈ completedStemsOf fs st1 images ↔
      s ∈ images.map (·.2) ∧ is_mesh_complete fs st1 s = true := by
  unfold completedStemsOf
  rw [mem_dedupKeepFirst]
  constructor
  · intro h
    obtain ⟨i, hi, hieq⟩ := List.mem_map.mp h
    obtain ⟨hii, hcomp⟩ := List.mem_filter.mp hi
    exact ⟨hieq ▸ List.mem_map_of_mem _ hii, hieq ▸ hcomp⟩
  · intro ⟨hmem, hcomp⟩
    obtain ⟨i, hi, hieq⟩ := List.mem_map.mp hmem
    rw [← hieq]
    refine List.mem_map_of_mem _ (List.mem_filter.mpr ⟨hi, ?_⟩)
    show is_mesh_complete fs st1 i.2 = true
    rw [hieq]
    exact hcomp

/-- A run of `process_all` over a state whose results already cover every
enumerated stem with a nonempty on-disk path attempts nothing and reports
exactly the recorded paths. -/
theorem process_all_already_complete (fs' : String → Bool)
    (o' : String → Option String × List String) (M : MeshState)
    (images : List (String × String))
    (hnd2 : M.completed.Nodup)
    (hall : ∀ s ∈ images.map (·.2),
      ∃ q, lookupRes M.results s = some q ∧ q ≠ "" ∧ fs' q = true)
    (himgs : images.isEmpty = false) :
    (process_all fs' o' M images false).attempted = [] ∧
    (∀ s, lookupRes (process_all fs' o' M images false).results s
        = if s ∈ images.map (·.2) then lookupRes M.results s else none) := by
  have hlk2 : ∀ s ∈ images.map (·.2),
      lookupRes (cleanedState fs' M).results s = lookupRes M.results s := by
    intro s hs
    obtain ⟨q, hq, hqne, hqfs⟩ := hall s hs
    rw [lookup_cleanedState fs' M hnd2 s]
    refine if_neg ?_
    rintro ⟨-, hstale⟩
    unfold entryStale at hstale
    rw [hq] at hstale
    simp only [Option.getD_some] at hstale
    rcases Bool.or_eq_true .. ▸ hstale with h1 | h1
    · exact hqne (by simpa using h1)
    · rw [hqfs] at h1
      simp at h1
  have hcomp2 : ∀ s ∈ images.map (·.2),
      is_mesh_complete fs' (cleanedState fs' M) s = true := by
    intro s hs
    obtain ⟨q, hq, hqne, hqfs⟩ := hall s hs
    rw [(c2_is_mesh_complete_iff fs' (cleanedState fs' M) s)]
    exact ⟨q, (hlk2 s hs).trans hq, hqne, hqfs⟩
  have hCS2 : ∀ s, s ∈ completedStemsOf fs' (cleanedState fs' M) images ↔
      s ∈ images.map (·.2) := by
    intro s
    rw [mem_completedStemsOf]
    exact ⟨fun h => h.1, fun h => ⟨h, hcomp2 s h⟩⟩
  have hTP2 : toProcessOf fs' (cleanedState fs' M) images false = [] := by
    refine List.filter_eq_nil_iff.mpr ?_
    intro i hi
    have hmem : i.2 ∈ completedStemsOf fs' (cleanedState fs' M) images :=
      (hCS2 i.2).mpr (List.mem_map_of_mem _ hi)
    have hc : (completedStemsOf fs' (cleanedState fs' M) images).contains i.2 = true :=
      List.elem_eq_true_of_mem hmem
    simp [hmem]
  have hrun2 : process_all fs' o' M images false =
      ⟨(completedStemsOf fs' (cleanedState fs' M) images).map
          (fun s => (s, (lookupRes (cleanedState fs' M).results s).getD "")),
        [], completedStemsOf fs' (cleanedState fs' M) images,
        cleanedState fs' M, []⟩ := by
    unfold process_all
    rw [himgs, hTP2]
    rfl
  refine ⟨by rw [hrun2], ?_⟩
  intro s
  rw [hrun2]
  show lookupRes ((completedStemsOf fs' (cleanedState fs' M) images).map
      (fun s => (s, (lookupRes (cleanedState fs' M).results s).getD ""))) s = _
  rw [lookup_map_self]
  by_cases hs : s ∈ images.map (·.2)
  · obtain ⟨q, hq, hqne, hqfs⟩ := hall s hs
    have hcont : (completedStemsOf fs' (cleanedState fs' M) images).contains s = true :=
      List.elem_eq_true_of_mem ((hCS2 s).mpr hs)
    rw [if_pos hcont, if_pos hs, hlk2 s hs, hq]
    simp
  · rw [if_neg (fun hb => hs ((hCS2 s).mp (List.mem_of_elem_eq_true hb))), if_neg hs]

/-- C7.  Run the batch once; if every item the coordinator handed to the
per-item pipeline succeeded, and on the second run every path reported by
the first run still exists on disk, then running again over the same input
enumeration with the first run's checkpoint state attempts zero items and
returns the same result mapping — for any second-run backend behaviour. -/
theorem c7_second_run_idempotent (fs fs' : String → Bool)
    (o o' : String → Option String × List String) (st : MeshState)
    (images : List (String × String))
    (hnd : st.completed.Nodup)
    (hsucc : ∀ i ∈ toProcessOf fs (cleanedState fs st) images false,
      (o i.2).1.getD "" ≠ "")
    (hdisk : ∀ s p,
      lookupRes (process_all fs o st images false).results s = some p →
      fs' p = true) :
    (process_all fs' o' (process_all fs o st images false).state images false).attempted
        = [] ∧
    ∀ s, lookupRes (process_all fs' o'
          (process_all fs o st images false).state images false).results s
        = lookupRes (process_all fs o st images false).results s := by
  by_cases he : images.isEmpty
  · have h0 : images = [] := List.isEmpty_iff.mp he
    subst h0
    exact ⟨rfl, fun _ => rfl⟩
  · have he' : images.isEmpty = false := by simpa using he
    have hst1nd : (cleanedState fs st).completed.Nodup :=
      cleanedState_completed_nodup fs st hnd
    have hIface : (process_all fs o st images false).state.completed.Nodup ∧
        (∀ s ∈ images.map (·.2), ∃ q,
          lookupRes (process_all fs o st images false).results s = some q ∧ q ≠ "" ∧
          lookupRes (process_all fs o st images false).state.results s = some q) ∧
        (∀ s, s ∉ images.map (·.2) →
          lookupRes (process_all fs o st images false).results s = none) := by
      by_cases ht : (toProcessOf fs (cleanedState fs st) images false).isEmpty
      · have htE : (toProcessOf fs (cleanedState fs st) images false).isEmpty = true := ht
        have hrun1 : process_all fs o st images false =
            ⟨(completedStemsOf fs (cleanedState fs st) images).map
                (fun s => (s, (lookupRes (cleanedState fs st).results s).getD "")),
              [], completedStemsOf fs (cleanedState fs st) images,
              cleanedState fs st, []⟩ := by
          unfold process_all
          rw [he', htE]
          rfl
        have hTPnil : toProcessOf fs (cleanedState fs st) images false = [] :=
          List.isEmpty_iff.mp htE
        have hallcomp : ∀ i ∈ images,
            is_mesh_complete fs (cleanedState fs st) i.2 = true := by
          intro i hi
          by_cases hcon : is_mesh_complete fs (cleanedState fs st) i.2 = true
          · exact hcon
          · exfalso
            have hnotCS : i.2 ∉ completedStemsOf fs (cleanedState fs st) images :=
              fun hm => hcon ((mem_completedStemsOf fs _ images i.2).mp hm).2
            have hc : (completedStemsOf fs (cleanedState fs st) images).contains i.2
                = false := by
              cases hb : (completedStemsOf fs (cleanedState fs st) images).contains i.2
              · rfl
              · exact absurd (List.mem_of_elem_eq_true hb) hnotCS
            have hin : i ∈ toProcessOf fs (cleanedState fs st) images false := by
              refine List.mem_filter.mpr ⟨hi, ?_⟩
              show (false || !((completedStemsOf fs (cleanedState fs st) images).contains
                  i.2)) = true
              rw [hc]
              rfl
            rw [hTPnil] at hin
            exact List.not_mem_nil i hin
        refine ⟨?_, ?_, ?_⟩
        · rw [hrun1]
          exact hst1nd
        · intro s hs
          obtain ⟨i, hi, hieq⟩ := List.mem_map.mp hs
          have hcomp : is_mesh_complete fs (cleanedState fs st) s = true :=
            hieq ▸ hallcomp i hi
          obtain ⟨q, hq, hqne, hqfs⟩ :=
            (c2_is_mesh_complete_iff fs (cleanedState fs st) s).mp hcomp
          have hmemCS : s ∈ completedStemsOf fs (cleanedState fs st) images :=
            (mem_completedStemsOf fs _ images s).mpr ⟨hs, hcomp⟩
          refine ⟨q, ?_, hqne, ?_⟩
          · rw [hrun1]
            show lookupRes ((completedStemsOf fs (cleanedState fs st) images).map
              (fun s => (s, (lookupRes (cleanedState fs st).results s).getD ""))) s = some q
            rw [lookup_map_self, if_pos (List.elem_eq_true_of_mem hmemCS), hq]
            rfl
          · rw [hrun1]
            exact hq
        · intro s hs
          rw [hrun1]
          show lookupRes ((completedStemsOf fs (cleanedState fs st) images).map
            (fun s => (s, (lookupRes (cleanedState fs st).results s).getD ""))) s = none
          rw [lookup_map_self]
          refine if_neg ?_
          intro hb
          exact hs ((mem_completedStemsOf fs _ images s).mp (List.mem_of_elem_eq_true hb)).1
      · have htE : (toProcessOf fs (cleanedState fs st) images false).isEmpty = false := by
          simpa using ht
        have hrun1 : process_all fs o st images false =
            ⟨mergeCompleted fs
                (runLoop o (toProcessOf fs (cleanedState fs st) images false)
                  (cleanedState fs st) [] [] []).state
                (completedStemsOf fs (cleanedState fs st) images)
                (runLoop o (toProcessOf fs (cleanedState fs st) images false)
                  (cleanedState fs st) [] [] []).results,
              (runLoop o (toProcessOf fs (cleanedState fs st) images false)
                (cleanedState fs st) [] [] []).attempted,
              completedStemsOf fs (cleanedState fs st) images,
              (runLoop o (toProcessOf fs (cleanedState fs st) images false)
                (cleanedState fs st) [] [] []).state,
              (runLoop o (toProcessOf fs (cleanedState fs st) images false)
                (cleanedState fs st) [] [] []).logs⟩ := by
          unfold process_all
          rw [he', htE]
          rfl
        refine ⟨?_, ?_, ?_⟩
        · rw [hrun1]
          exact runLoop_state_nodup o _ _ _ _ _ hst1nd
        · intro s hs
          obtain ⟨i, hi, hieq⟩ := List.mem_map.mp hs
          by_cases hsTP :
              s ∈ (toProcessOf fs (cleanedState fs st) images false).map (·.2)
          · obtain ⟨j, hj, hjeq⟩ := List.mem_map.mp hsTP
            have hq : (o s).1.getD "" ≠ "" := hjeq ▸ hsucc j hj
            have hstate : lookupRes (runLoop o
                (toProcessOf fs (cleanedState fs st) images false)
                (cleanedState fs st) [] [] []).state.results s
                = some ((o s).1.getD "") := by
              rw [runLoop_lookup_state]
              exact if_pos ⟨hsTP, hq⟩
            have hloopres : lookupRes (runLoop o
                (toProcessOf fs (cleanedState fs st) images false)
                (cleanedState fs st) [] [] []).results s
                = some ((o s).1.getD "") := by
              rw [runLoop_lookup_results]
              exact if_pos ⟨hsTP, hq⟩
            refine ⟨(o s).1.getD "", ?_, hq, ?_⟩
            · rw [hrun1]
              show lookupRes (mergeCompleted fs _ _ _) s = _
              rw [lookup_mergeCompleted]
              by_cases hcs : s ∈ completedStemsOf fs (cleanedState fs st) images ∧
                  (lookupRes (runLoop o
                    (toProcessOf fs (cleanedState fs st) images false)
                    (cleanedState fs st) [] [] []).state.results s).getD "" ≠ "" ∧
                  fs ((lookupRes (runLoop o
                    (toProcessOf fs (cleanedState fs st) images false)
                    (cleanedState fs st) [] [] []).state.results s).getD "") = true
              · rw [if_pos hcs, hstate]
                rfl
              · rw [if_neg hcs]
                exact hloopres
            · rw [hrun1]
              exact hstate
          · have hiTP : i ∉ toProcessOf fs (cleanedState fs st) images false :=
              fun hin => hsTP (hieq ▸ List.mem_map_of_mem _ hin)
            have hpred : ¬((false ||
                !((completedStemsOf fs (cleanedState fs st) images).contains i.2))
                  = true) :=
              fun hp => hiTP (List.mem_filter.mpr ⟨hi, hp⟩)
            have hcont : (completedStemsOf fs (cleanedState fs st) images).contains i.2
                = true := by
              cases hb : (completedStemsOf fs (cleanedState fs st) images).contains i.2
              · exact absurd (by rw [hb]; rfl) hpred
              · rfl
            have hmemCS : s ∈ completedStemsOf fs (cleanedState fs st) images :=
              hieq ▸ List.mem_of_elem_eq_true hcont
            have hcomp : is_mesh_complete fs (cleanedState fs st) s = true :=
              ((mem_completedStemsOf fs _ images s).mp hmemCS).2
            obtain ⟨p, hp, hpne, hpfs⟩ :=
              (c2_is_mesh_complete_iff fs (cleanedState fs st) s).mp hcomp
            have hstate : lookupRes (runLoop o
                (toProcessOf fs (cleanedState fs st) images false)
                (cleanedState fs st) [] [] []).state.results s = some p := by
              rw [runLoop_lookup_state, if_neg (fun hcon => hsTP hcon.1)]
              exact hp
            refine ⟨p, ?_, hpne, ?_⟩
            · rw [hrun1]
              show lookupRes (mergeCompleted fs _ _ _) s = _
              rw [lookup_mergeCompleted,
                if_pos ⟨hmemCS, by rw [hstate]; simpa using hpne,
                  by rw [hstate]; simpa using hpfs⟩, hstate]
              rfl
            · rw [hrun1]
              exact hstate
        · intro s hs
          rw [hrun1]
          show lookupRes (mergeCompleted fs _ _ _) s = none
          rw [lookup_mergeCompleted, if_neg (fun hcon =>
            hs ((mem_completedStemsOf fs _ images s).mp hcon.1).1)]
          rw [runLoop_lookup_results, if_neg ?_]
          · rfl
          · intro hcon
            obtain ⟨j, hj, hjeq⟩ := List.mem_map.mp hcon.1
            exact hs (hjeq ▸ List.mem_map_of_mem _ (List.mem_filter.mp hj).1)
    obtain ⟨hndM, hallM, hnone⟩ := hIface
    have happ := process_all_already_complete fs' o'
      (process_all fs o st images false).state images hndM
      (fun s hs => by
        obtain ⟨q, hq1, hqne, hq2⟩ := hallM s hs
        exact ⟨q, hq2, hqne, hdisk s q hq1⟩) he'
    refine ⟨happ.1, ?_⟩
    intro s
    rw [happ.2 s]
    by_cases hs : s ∈ images.map (·.2)
    · rw [if_pos hs]
      obtain ⟨q, hq1, hqne, hq2⟩ := hallM s hs
      rw [hq2, hq1]
    · rw [if_neg hs, hnone s hs]

/-- Concrete check for C7: after a successful one-item first run whose output
survives on disk, the second run attempts nothing and reproduces the result
mapping. -/
theorem c7_witness :
    emptyMeshState.completed.Nodup ∧
    (∀ i ∈ toProcessOf (fun _ => false)
        (cleanedState (fun _ => false) emptyMeshState) [("a.png", "a")] false,
      ((fun _ : String => (some "out/a.glb", ([] : List String))) i.2).1.getD "" ≠ "") ∧
    ((process_all (fun _ => true) (fun _ => (none, []))
        (process_all (fun _ => false) (fun _ => (some "out/a.glb", []))
          emptyMeshState [("a.png", "a")] false).state
        [("a.png", "a")] false).attempted = [] ∧
      ∀ s, lookupRes (process_all (fun _ => true) (fun _ => (none, []))
            (process_all (fun _ => false) (fun _ => (some "out/a.glb", []))
              emptyMeshState [("a.png", "a")] false).state
            [("a.png", "a")] false).results s
          = lookupRes (process_all (fun _ => false) (fun _ => (some "out/a.glb", []))
              emptyMeshState [("a.png", "a")] false).results s) := by
  refine ⟨by decide, by decide, ?_⟩
  exact c7_second_run_idempotent (fun _ => false) (fun _ => true)
    (fun _ => (some "out/a.glb", [])) (fun _ => (none, [])) emptyMeshState
    [("a.png", "a")] (by decide) (by decide) (fun _ _ _ => rfl)

end Image2Mesh
